import Mathlib

/-!
Verification of the size-indexed key collection library (`key-set`).

The library stores cryptographic keys indexed by the transaction shape
(number of inputs, number of outputs) they support, ordered by a pluggable
sort-key strategy, and answers exact-fit and best-fit lookups.  The
`BTreeMap` backing store is embedded as an association list kept strictly
sorted by the lexicographic order on sort keys; iteration order of the map
is list order, `range (Included lb, Unbounded)` is the sorted filter keeping
entries with sort key at least `lb`, and `iter().next_back()` is the last
list entry.  Panics are embedded as `Option.none` results.
-/

/-- Construction errors of `KeySet::new`: two keys with the same shape, or an
empty input batch. -/
inductive Error where
  | DuplicateKeys (num_inputs num_outputs : Nat) : Error
  | NoKeys : Error
deriving DecidableEq, Repr

/-- The `SizedKey` trait: a key that reports its (inputs, outputs) shape. -/
class SizedKey (K : Type) where
  num_inputs : K → Nat
  num_outputs : K → Nat

open SizedKey

/-- Sort keys produced by both shipped ordering strategies are pairs of
machine-size naturals. -/
abbrev SortKey := Nat × Nat

/-- The `OrderByInputs` strategy: inputs is the primary sort axis. -/
def OrderByInputs.sort_key (ni no : Nat) : SortKey := (ni, no)

/-- The `OrderByOutputs` strategy: outputs is the primary sort axis. -/
def OrderByOutputs.sort_key (ni no : Nat) : SortKey := (no, ni)

/-- Strict lexicographic order on sort keys, the `Ord` instance `BTreeMap`
sorts `(usize, usize)` keys by. -/
def lexLt (a b : SortKey) : Bool :=
  a.1 < b.1 || (a.1 == b.1 && a.2 < b.2)

/-- Reflexive closure of `lexLt`. -/
def lexLe (a b : SortKey) : Bool :=
  lexLt a b || a == b

/-- `BTreeMap::contains_key` on the sorted association-list model. -/
def containsKey {K : Type} (c : SortKey) : List (SortKey × K) → Bool
  | [] => false
  | e :: rest => c == e.1 || containsKey c rest

/-- `BTreeMap::get` on the sorted association-list model. -/
def mapGet {K : Type} (c : SortKey) : List (SortKey × K) → Option K
  | [] => none
  | e :: rest => if e.1 == c then some e.2 else mapGet c rest

/-- `BTreeMap::insert` on the sorted association-list model: ordered insert,
replacing an existing entry with the same sort key. -/
def insertSorted {K : Type} (c : SortKey) (v : K) : List (SortKey × K) → List (SortKey × K)
  | [] => [(c, v)]
  | e :: rest =>
    if lexLt c e.1 then (c, v) :: e :: rest
    else if c == e.1 then (c, v) :: rest
    else e :: insertSorted c v rest

/-- `BTreeMap::range (Included lb, Unbounded)`: the entries with sort key at
least `lb`, visited in ascending sort-key order. -/
def rangeFrom {K : Type} (lb : SortKey) (l : List (SortKey × K)) : List (SortKey × K) :=
  l.filter (fun e => lexLe lb e.1)

/-- `iter().next_back()`: the last entry of the map, `none` when empty. -/
def lastEntry {K : Type} : List (SortKey × K) → Option (SortKey × K)
  | [] => none
  | [e] => some e
  | _ :: e :: rest => lastEntry (e :: rest)

/-- The size-indexed key collection: a `BTreeMap` from sort key to key,
embedded as its sorted entry list. -/
structure KeySet (K : Type) where
  keys : List (SortKey × K)

/-- The loop body of `KeySet::new`: fold the input keys into the map,
failing on the first sort-key collision. -/
def newLoop {K : Type} [SizedKey K] (sk : Nat → Nat → SortKey) :
    List (SortKey × K) → List K → Except Error (List (SortKey × K))
  | m, [] => Except.ok m
  | m, key :: rest =>
    let c := sk (num_inputs key) (num_outputs key)
    if containsKey c m then
      Except.error (Error.DuplicateKeys (num_inputs key) (num_outputs key))
    else
      newLoop sk (insertSorted c key m) rest

/-- `KeySet::new`: build the map from the batch, then reject emptiness. -/
def KeySet.new {K : Type} [SizedKey K] (sk : Nat → Nat → SortKey) (ks : List K) :
    Except Error (KeySet K) :=
  match newLoop sk [] ks with
  | Except.error e => Except.error e
  | Except.ok m => if m.isEmpty then Except.error Error.NoKeys else Except.ok ⟨m⟩

/-- `KeySet::max_size`: shape of the last entry in sort order; the `unwrap`
panic on an empty map is embedded as `none`. -/
def KeySet.max_size {K : Type} [SizedKey K] (s : KeySet K) : Option (Nat × Nat) :=
  (lastEntry s.keys).map (fun e => (num_inputs e.2, num_outputs e.2))

/-- `KeySet::key_for_size`: direct sort-key lookup. -/
def KeySet.key_for_size {K : Type} [SizedKey K] (sk : Nat → Nat → SortKey) (s : KeySet K)
    (ni no : Nat) : Option K :=
  mapGet (sk ni no) s.keys

/-- The `find_map` closure scan of `KeySet::best_fit_key`: first entry whose
shape dominates the request in both dimensions, with its shape. -/
def findMapScan {K : Type} [SizedKey K] (ni no : Nat) :
    List (SortKey × K) → Option (Nat × Nat × K)
  | [] => none
  | e :: rest =>
    if ni ≤ num_inputs e.2 ∧ no ≤ num_outputs e.2 then
      some (num_inputs e.2, num_outputs e.2, e.2)
    else findMapScan ni no rest

/-- `KeySet::best_fit_key`: scan the range at or above the requested sort key
for the first dominating entry; on failure return `max_size()` as the error
payload.  The outer `none` is the panic of `max_size` on an empty map. -/
def KeySet.best_fit_key {K : Type} [SizedKey K] (sk : Nat → Nat → SortKey) (s : KeySet K)
    (ni no : Nat) : Option (Except (Nat × Nat) (Nat × Nat × K)) :=
  match findMapScan ni no (rangeFrom (sk ni no) s.keys) with
  | some r => some (Except.ok r)
  | none => (s.max_size).map Except.error

/-- `KeySet::exact_fit_key`: direct sort-key lookup. -/
def KeySet.exact_fit_key {K : Type} [SizedKey K] (sk : Nat → Nat → SortKey) (s : KeySet K)
    (ni no : Nat) : Option K :=
  mapGet (sk ni no) s.keys

/-- `KeySet::iter`: the stored keys in ascending sort-key order. -/
def KeySet.iter {K : Type} (s : KeySet K) : List K :=
  s.keys.map (fun e => e.2)

/-- The `FromIterator` impl: `Self::new(iter).unwrap()`; the panic on a
construction error is embedded as `none`. -/
def KeySet.from_iter {K : Type} [SizedKey K] (sk : Nat → Nat → SortKey) (ks : List K) :
    Option (KeySet K) :=
  (KeySet.new sk ks).toOption

/-- The derived `Default` impl: field-wise default, i.e. the empty map. -/
def KeySet.default {K : Type} : KeySet K := ⟨[]⟩

/-- Transfer verifying key of the surrounding system, reduced to the data the
shape accessors read. -/
structure TransferVerifyingKey where
  num_input : Nat
  num_output : Nat
deriving DecidableEq, Repr

/-- Freeze verifying key, reduced to the data the shape accessors read. -/
structure FreezeVerifyingKey where
  num_input : Nat
  num_output : Nat
deriving DecidableEq, Repr

/-- Mint verifying key: its content is never consulted by the shape
accessors, kept abstract as a natural. -/
structure MintVerifyingKey where
  content : Nat
deriving DecidableEq, Repr

/-- The tagged-union transaction verifying key. -/
inductive TransactionVerifyingKey where
  | Transfer (xfr : TransferVerifyingKey) : TransactionVerifyingKey
  | Freeze (freeze : FreezeVerifyingKey) : TransactionVerifyingKey
  | Mint (mint : MintVerifyingKey) : TransactionVerifyingKey
deriving DecidableEq, Repr

/-- The `SizedKey` impl for `TransactionVerifyingKey`: dispatch by variant,
with the mint variant's shape fixed at (1, 2). -/
instance : SizedKey TransactionVerifyingKey where
  num_inputs k :=
    match k with
    | TransactionVerifyingKey.Transfer xfr => xfr.num_input
    | TransactionVerifyingKey.Freeze freeze => freeze.num_input
    | TransactionVerifyingKey.Mint _ => 1
  num_outputs k :=
    match k with
    | TransactionVerifyingKey.Transfer xfr => xfr.num_output
    | TransactionVerifyingKey.Freeze freeze => freeze.num_output
    | TransactionVerifyingKey.Mint _ => 2

/-- Concrete key type used for witnesses: a payload tag plus a shape. -/
structure TestKey where
  tag : Nat
  inputs : Nat
  outputs : Nat
deriving DecidableEq, Repr

instance : SizedKey TestKey := ⟨TestKey.inputs, TestKey.outputs⟩

/-- The ordering strategies shipped by the library. -/
def GoodOrder (sk : Nat → Nat → SortKey) : Prop :=
  sk = OrderByInputs.sort_key ∨ sk = OrderByOutputs.sort_key

/-- Invariant of the association-list model of `BTreeMap`: entries strictly
ascending in sort key. -/
def KeysSorted {K : Type} (l : List (SortKey × K)) : Prop :=
  l.Pairwise (fun a b => lexLt a.1 b.1 = true)

/-- Invariant of `KeySet`: every entry is indexed by the sort key of its own
key's shape. -/
def CoherentKeys {K : Type} [SizedKey K] (sk : Nat → Nat → SortKey)
    (l : List (SortKey × K)) : Prop :=
  ∀ e ∈ l, e.1 = sk (num_inputs e.2) (num_outputs e.2)

/-- The map entry `KeySet::new` builds for a key: its sort key paired with it. -/
def keyEntry {K : Type} [SizedKey K] (sk : Nat → Nat → SortKey) (k : K) : SortKey × K :=
  (sk (num_inputs k) (num_outputs k), k)

/-- Number of keys of shape `(ni, no)` in a batch. -/
def shapeCount {K : Type} [SizedKey K] (ni no : Nat) (ks : List K) : Nat :=
  ks.countP (fun k => num_inputs k == ni && num_outputs k == no)

theorem lexLt_char (a b : SortKey) :
    lexLt a b = true ↔ (a.1 < b.1 ∨ (a.1 = b.1 ∧ a.2 < b.2)) := by
  simp only [lexLt, Bool.or_eq_true, Bool.and_eq_true, decide_eq_true_eq, beq_iff_eq]

theorem lexLe_char (a b : SortKey) :
    lexLe a b = true ↔ (a.1 < b.1 ∨ (a.1 = b.1 ∧ a.2 ≤ b.2)) := by
  simp only [lexLe, lexLt, Bool.or_eq_true, Bool.and_eq_true, decide_eq_true_eq, beq_iff_eq,
    Prod.ext_iff]
  omega

theorem lexLt_trans {a b c : SortKey} (h1 : lexLt a b = true) (h2 : lexLt b c = true) :
    lexLt a c = true := by
  rw [lexLt_char] at h1 h2 ⊢; omega

theorem lexLe_refl (a : SortKey) : lexLe a a = true := by
  rw [lexLe_char]; omega

theorem lexLe_antisymm {a b : SortKey} (h1 : lexLe a b = true) (h2 : lexLe b a = true) :
    a = b := by
  rw [lexLe_char] at h1 h2
  rw [Prod.ext_iff]
  omega

theorem lexLe_of_lt {a b : SortKey} (h : lexLt a b = true) : lexLe a b = true := by
  rw [lexLt_char] at h; rw [lexLe_char]; omega

theorem lexLt_of_not_ge {a b : SortKey} (h1 : ¬ lexLt a b = true) (h2 : ¬ a = b) :
    lexLt b a = true := by
  rw [lexLt_char] at h1 ⊢
  rw [Prod.ext_iff] at h2
  omega

theorem lexLt_ne {a b : SortKey} (h : lexLt a b = true) : a ≠ b := by
  rw [lexLt_char] at h
  rw [Ne, Prod.ext_iff]
  omega

theorem containsKey_iff {K : Type} (c : SortKey) (l : List (SortKey × K)) :
    containsKey c l = true ↔ ∃ e ∈ l, e.1 = c := by
  induction l with
  | nil => simp [containsKey]
  | cons e rest ih =>
    simp only [containsKey, Bool.or_eq_true, beq_iff_eq, ih, List.mem_cons]
    constructor
    · rintro (h | ⟨e', he', h⟩)
      · exact ⟨e, Or.inl rfl, h.symm⟩
      · exact ⟨e', Or.inr he', h⟩
    · rintro ⟨e', (rfl | he'), h⟩
      · exact Or.inl h.symm
      · exact Or.inr ⟨e', he', h⟩

theorem mem_insertSorted {K : Type} {c : SortKey} {v : K} {l : List (SortKey × K)}
    {x : SortKey × K} (hx : x ∈ insertSorted c v l) : x = (c, v) ∨ x ∈ l := by
  induction l with
  | nil => simpa [insertSorted] using hx
  | cons e rest ih =>
    simp only [insertSorted] at hx
    split at hx
    · simpa using hx
    · split at hx
      · rcases List.mem_cons.mp hx with h | h
        · exact Or.inl h
        · exact Or.inr (List.mem_cons_of_mem e h)
      · rcases List.mem_cons.mp hx with h | h
        · exact Or.inr (h ▸ List.mem_cons_self e rest)
        · rcases ih h with h' | h'
          · exact Or.inl h'
          · exact Or.inr (List.mem_cons_of_mem e h')

theorem insertSorted_perm {K : Type} {c : SortKey} (v : K) {l : List (SortKey × K)}
    (h : containsKey c l = false) : (insertSorted c v l).Perm ((c, v) :: l) := by
  induction l with
  | nil => simp [insertSorted]
  | cons e rest ih =>
    simp only [containsKey, Bool.or_eq_false_iff, beq_eq_false_iff_ne] at h
    simp only [insertSorted]
    split
    · exact List.Perm.refl _
    · split
      · exact absurd (beq_iff_eq.mp (by assumption)) h.1
      · exact ((ih h.2).cons e).trans (List.Perm.swap (c, v) e rest)

theorem insertSorted_sorted {K : Type} {c : SortKey} (v : K) {l : List (SortKey × K)}
    (hs : KeysSorted l) (h : containsKey c l = false) :
    KeysSorted (insertSorted c v l) := by
  induction l with
  | nil => simp [insertSorted, KeysSorted]
  | cons e rest ih =>
    simp only [containsKey, Bool.or_eq_false_iff, beq_eq_false_iff_ne] at h
    rw [KeysSorted, List.pairwise_cons] at hs
    simp only [insertSorted]
    split
    · rw [KeysSorted, List.pairwise_cons]
      refine ⟨?_, List.pairwise_cons.mpr hs⟩
      intro x hx
      rcases List.mem_cons.mp hx with rfl | hx
      · assumption
      · exact lexLt_trans (by assumption) (hs.1 x hx)
    · split
      · exact absurd (beq_iff_eq.mp (by assumption)) h.1
      · rw [KeysSorted, List.pairwise_cons]
        refine ⟨?_, ih hs.2 h.2⟩
        intro x hx
        rcases mem_insertSorted hx with rfl | hx
        · exact lexLt_of_not_ge (by assumption) fun hc => h.1 hc
        · exact hs.1 x hx

theorem insertSorted_coherent {K : Type} [SizedKey K] {sk : Nat → Nat → SortKey}
    {v : K} {l : List (SortKey × K)} (hc : CoherentKeys sk l) :
    CoherentKeys sk (insertSorted (sk (num_inputs v) (num_outputs v)) v l) := by
  intro x hx
  rcases mem_insertSorted hx with rfl | hx
  · rfl
  · exact hc x hx

theorem containsKey_insertSorted_false {K : Type} {c c' : SortKey} (v : K)
    {l : List (SortKey × K)} (hne : c' ≠ c) (h : containsKey c' l = false) :
    containsKey c' (insertSorted c v l) = false := by
  rw [Bool.eq_false_iff]
  intro hcon
  rcases (containsKey_iff c' _).mp hcon with ⟨e, he, rfl⟩
  rcases mem_insertSorted he with rfl | he
  · exact hne rfl
  · rw [Bool.eq_false_iff] at h
    exact h ((containsKey_iff _ _).mpr ⟨e, he, rfl⟩)

theorem newLoop_ok_spec {K : Type} [SizedKey K] (sk : Nat → Nat → SortKey) :
    ∀ (ks : List K) (m m' : List (SortKey × K)), KeysSorted m → CoherentKeys sk m →
      newLoop sk m ks = Except.ok m' →
      KeysSorted m' ∧ CoherentKeys sk m' ∧ m'.Perm (m ++ ks.map (keyEntry sk)) := by
  intro ks
  induction ks with
  | nil =>
    intro m m' hs hc h
    simp only [newLoop] at h
    cases h
    exact ⟨hs, hc, by simp⟩
  | cons key rest ih =>
    intro m m' hs hc h
    simp only [newLoop] at h
    split at h
    · cases h
    · rename_i hfresh
      rw [Bool.not_eq_true] at hfresh
      obtain ⟨hs', hc', hp⟩ :=
        ih (insertSorted (sk (num_inputs key) (num_outputs key)) key m) m'
          (insertSorted_sorted key hs hfresh) (insertSorted_coherent hc) h
      refine ⟨hs', hc', hp.trans ?_⟩
      exact ((insertSorted_perm key hfresh).append_right _).trans List.perm_middle.symm

theorem new_ok_spec {K : Type} [SizedKey K] {sk : Nat → Nat → SortKey} {ks : List K}
    {s : KeySet K} (h : KeySet.new sk ks = Except.ok s) :
    KeysSorted s.keys ∧ CoherentKeys sk s.keys ∧ s.keys ≠ [] ∧
      s.keys.Perm (ks.map (keyEntry sk)) := by
  rw [KeySet.new] at h
  split at h
  · cases h
  · rename_i m hm
    split at h
    · cases h
    · rename_i hne
      cases h
      obtain ⟨hs, hc, hp⟩ :=
        newLoop_ok_spec sk ks [] m (List.Pairwise.nil) (fun e he => absurd he (List.not_mem_nil e)) hm
      refine ⟨hs, hc, ?_, by simpa using hp⟩
      intro hnil
      have hm0 : m = [] := hnil
      subst hm0
      exact hne rfl

theorem mapGet_eq_some_of_mem {K : Type} {c : SortKey} {v : K} {l : List (SortKey × K)}
    (hs : KeysSorted l) (hm : (c, v) ∈ l) : mapGet c l = some v := by
  induction l with
  | nil => cases hm
  | cons e rest ih =>
    rw [KeysSorted, List.pairwise_cons] at hs
    rcases List.mem_cons.mp hm with h | h
    · cases h
      simp [mapGet]
    · have hne : e.1 ≠ c := by
        intro hc
        exact lexLt_ne (hs.1 (c, v) h) (by simp [hc])
      simp only [mapGet, beq_iff_eq, if_neg hne]
      exact ih hs.2 h

theorem mem_of_mapGet_eq_some {K : Type} {c : SortKey} {v : K} {l : List (SortKey × K)}
    (h : mapGet c l = some v) : (c, v) ∈ l := by
  induction l with
  | nil => cases h
  | cons e rest ih =>
    simp only [mapGet, beq_iff_eq] at h
    split at h
    · cases h
      rename_i heq
      have : e = (c, e.2) := by rw [Prod.ext_iff]; exact ⟨heq, rfl⟩
      rw [← this]
      exact List.mem_cons_self e rest
    · exact List.mem_cons_of_mem e (ih h)

theorem lastEntry_of_ne_nil {K : Type} :
    ∀ (l : List (SortKey × K)), l ≠ [] → ∃ e, lastEntry l = some e ∧ e ∈ l
  | [], h => absurd rfl h
  | [e], _ => ⟨e, rfl, List.mem_cons_self e []⟩
  | a :: e :: rest, _ => by
    obtain ⟨x, hx, hmem⟩ := lastEntry_of_ne_nil (e :: rest) (by simp)
    exact ⟨x, by rw [lastEntry]; exact hx, List.mem_cons_of_mem a hmem⟩

theorem lastEntry_max {K : Type} :
    ∀ (l : List (SortKey × K)), KeysSorted l → ∀ x, lastEntry l = some x →
      ∀ e ∈ l, lexLe e.1 x.1 = true
  | [], _, x, hx => by cases hx
  | [a], _, x, hx => by
    cases hx
    intro e he
    rcases List.mem_cons.mp he with rfl | he
    · exact lexLe_refl _
    · cases he
  | a :: b :: rest, hs, x, hx => by
    rw [KeysSorted, List.pairwise_cons] at hs
    rw [lastEntry] at hx
    intro e he
    rcases List.mem_cons.mp he with rfl | he
    · obtain ⟨y, hy, hymem⟩ := lastEntry_of_ne_nil (b :: rest) (by simp)
      rw [hy] at hx
      cases hx
      exact lexLe_of_lt (hs.1 x hymem)
    · exact lastEntry_max (b :: rest) hs.2 x hx e he

theorem findMapScan_eq_none_iff {K : Type} [SizedKey K] (ni no : Nat)
    (l : List (SortKey × K)) :
    findMapScan ni no l = none ↔
      ∀ e ∈ l, ¬(ni ≤ num_inputs e.2 ∧ no ≤ num_outputs e.2) := by
  induction l with
  | nil => simp [findMapScan]
  | cons e rest ih =>
    simp only [findMapScan]
    split
    · rename_i hdom
      constructor
      · intro h
        cases h
      · intro hall
        exact absurd hdom (hall e (List.mem_cons_self e rest))
    · simp only [ih, List.mem_cons]
      constructor
      · rintro hall e' (rfl | he')
        · assumption
        · exact hall e' he'
      · intro hall e' he'
        exact hall e' (Or.inr he')

theorem findMapScan_min {K : Type} [SizedKey K] {ni no ki ko : Nat} {k : K} :
    ∀ {l : List (SortKey × K)}, KeysSorted l →
      findMapScan ni no l = some (ki, ko, k) →
      ∃ e ∈ l, e.2 = k ∧ ki = num_inputs k ∧ ko = num_outputs k ∧ ni ≤ ki ∧ no ≤ ko ∧
        ∀ e' ∈ l, ni ≤ num_inputs e'.2 → no ≤ num_outputs e'.2 → lexLe e.1 e'.1 = true := by
  intro l
  induction l with
  | nil => intro _ h; cases h
  | cons e rest ih =>
    intro hs h
    rw [KeysSorted, List.pairwise_cons] at hs
    simp only [findMapScan] at h
    split at h
    · rename_i hdom
      injection h with h
      injection h with h1 h'
      injection h' with h2 h3
      subst h1
      subst h2
      subst h3
      refine ⟨e, List.mem_cons_self e rest, rfl, rfl, rfl, hdom.1, hdom.2, ?_⟩
      intro e' he' _ _
      rcases List.mem_cons.mp he' with rfl | he'
      · exact lexLe_refl _
      · exact lexLe_of_lt (hs.1 e' he')
    · rename_i hdom
      obtain ⟨e', he', hrest⟩ := ih hs.2 h
      refine ⟨e', List.mem_cons_of_mem e he', hrest.1, hrest.2.1, hrest.2.2.1,
        hrest.2.2.2.1, hrest.2.2.2.2.1, ?_⟩
      intro x hx hx1 hx2
      rcases List.mem_cons.mp hx with rfl | hx
      · exact absurd ⟨hx1, hx2⟩ hdom
      · exact hrest.2.2.2.2.2 x hx hx1 hx2

theorem goodOrder_inj {sk : Nat → Nat → SortKey} (hsk : GoodOrder sk)
    {a b c d : Nat} (h : sk a b = sk c d) : a = c ∧ b = d := by
  rcases hsk with rfl | rfl
  · simp only [OrderByInputs.sort_key, Prod.mk.injEq] at h
    exact h
  · simp only [OrderByOutputs.sort_key, Prod.mk.injEq] at h
    exact ⟨h.2, h.1⟩

theorem goodOrder_mono {sk : Nat → Nat → SortKey} (hsk : GoodOrder sk)
    {a b c d : Nat} (h1 : a ≤ c) (h2 : b ≤ d) : lexLe (sk a b) (sk c d) = true := by
  rcases hsk with rfl | rfl <;>
    · rw [lexLe_char]
      simp only [OrderByInputs.sort_key, OrderByOutputs.sort_key]
      omega

theorem exact_fit_char {K : Type} [SizedKey K] (sk : Nat → Nat → SortKey)
    {s : KeySet K} (hs : KeysSorted s.keys) (ni no : Nat) (k : K) :
    s.exact_fit_key sk ni no = some k ↔ (sk ni no, k) ∈ s.keys :=
  ⟨mem_of_mapGet_eq_some, mapGet_eq_some_of_mem hs⟩

theorem best_fit_spec {K : Type} [SizedKey K] {sk : Nat → Nat → SortKey}
    (hsk : GoodOrder sk) (s : KeySet K) (hs : KeysSorted s.keys)
    (hco : CoherentKeys sk s.keys) (hne : s.keys ≠ []) (ni no : Nat) :
    (∃ ki ko k, s.best_fit_key sk ni no = some (Except.ok (ki, ko, k)) ∧
      (∃ e ∈ s.keys, e.2 = k) ∧ ki = num_inputs k ∧ ko = num_outputs k ∧
      ni ≤ ki ∧ no ≤ ko ∧
      ∀ e ∈ s.keys, ni ≤ num_inputs e.2 → no ≤ num_outputs e.2 →
        lexLe (sk ki ko) e.1 = true) ∨
    ((∀ e ∈ s.keys, ¬(ni ≤ num_inputs e.2 ∧ no ≤ num_outputs e.2)) ∧
      ∃ m, s.max_size = some m ∧ s.best_fit_key sk ni no = some (Except.error m)) := by
  have hsr : KeysSorted (rangeFrom (sk ni no) s.keys) :=
    List.Pairwise.sublist (List.filter_sublist s.keys) hs
  cases hscan : findMapScan ni no (rangeFrom (sk ni no) s.keys) with
  | some r =>
    obtain ⟨ki, ko, k⟩ := r
    left
    obtain ⟨e, hem, he2, hki, hko, hni, hno, hmin⟩ := findMapScan_min hsr hscan
    have hmem : e ∈ s.keys := (List.mem_filter.mp hem).1
    have he1 : e.1 = sk ki ko := by
      rw [hco e hmem, he2, ← hki, ← hko]
    refine ⟨ki, ko, k, ?_, ⟨e, hmem, he2⟩, hki, hko, hni, hno, ?_⟩
    · simp only [KeySet.best_fit_key, hscan]
    · intro x hx hx1 hx2
      have hxr : x ∈ rangeFrom (sk ni no) s.keys := by
        rw [rangeFrom, List.mem_filter]
        refine ⟨hx, ?_⟩
        rw [hco x hx]
        exact goodOrder_mono hsk hx1 hx2
      rw [← he1]
      exact hmin x hxr hx1 hx2
  | none =>
    right
    have hall := (findMapScan_eq_none_iff ni no _).mp hscan
    obtain ⟨le, hle, hlemem⟩ := lastEntry_of_ne_nil s.keys hne
    refine ⟨?_, (num_inputs le.2, num_outputs le.2), ?_, ?_⟩
    · intro e he hdom
      have her : e ∈ rangeFrom (sk ni no) s.keys := by
        rw [rangeFrom, List.mem_filter]
        exact ⟨he, by rw [hco e he]; exact goodOrder_mono hsk hdom.1 hdom.2⟩
      exact hall e her hdom
    · rw [KeySet.max_size, hle]
      rfl
    · simp only [KeySet.best_fit_key, hscan, KeySet.max_size, hle]
      rfl

theorem newLoop_total {K : Type} [SizedKey K] (sk : Nat → Nat → SortKey) :
    ∀ (ks : List K) (m : List (SortKey × K)),
      (∀ k ∈ ks, containsKey (sk (num_inputs k) (num_outputs k)) m = false) →
      ks.Pairwise (fun a b =>
        sk (num_inputs a) (num_outputs a) ≠ sk (num_inputs b) (num_outputs b)) →
      ∃ m', newLoop sk m ks = Except.ok m' := by
  intro ks
  induction ks with
  | nil => exact fun m _ _ => ⟨m, rfl⟩
  | cons key rest ih =>
    intro m hfresh hdist
    rw [List.pairwise_cons] at hdist
    have hf := hfresh key (List.mem_cons_self key rest)
    obtain ⟨m', hm'⟩ := ih (insertSorted (sk (num_inputs key) (num_outputs key)) key m)
      (fun k hk => containsKey_insertSorted_false key (Ne.symm (hdist.1 k hk))
        (hfresh k (List.mem_cons_of_mem key hk)))
      hdist.2
    refine ⟨m', ?_⟩
    simp only [newLoop, hf]
    exact hm'

theorem newLoop_error_form {K : Type} [SizedKey K] (sk : Nat → Nat → SortKey) :
    ∀ (ks : List K) (m : List (SortKey × K)) (e : Error),
      newLoop sk m ks = Except.error e → ∃ a b, e = Error.DuplicateKeys a b := by
  intro ks
  induction ks with
  | nil =>
    intro m e h
    simp only [newLoop] at h
    cases h
  | cons key rest ih =>
    intro m e h
    simp only [newLoop] at h
    split at h
    · cases h
      exact ⟨_, _, rfl⟩
    · exact ih _ e h

theorem newLoop_error_dup {K : Type} [SizedKey K] {sk : Nat → Nat → SortKey}
    (hsk : GoodOrder sk) {ni no : Nat} :
    ∀ (ks : List K) (m : List (SortKey × K)), CoherentKeys sk m →
      newLoop sk m ks = Except.error (Error.DuplicateKeys ni no) →
      2 ≤ shapeCount ni no (m.map (fun e => e.2)) + shapeCount ni no ks := by
  intro ks
  induction ks with
  | nil =>
    intro m _ h
    simp only [newLoop] at h
    cases h
  | cons key rest ih =>
    intro m hco h
    simp only [newLoop] at h
    split at h
    · rename_i hcon
      injection h with h
      injection h with h1 h2
      subst h1
      subst h2
      obtain ⟨e, hem, he1⟩ := (containsKey_iff _ _).mp hcon
      have hsh := goodOrder_inj hsk ((hco e hem).symm.trans he1)
      have hm1 : 0 < shapeCount (num_inputs key) (num_outputs key)
          (m.map (fun e => e.2)) := by
        rw [shapeCount, List.countP_pos_iff]
        exact ⟨e.2, List.mem_map_of_mem _ hem, by simp [hsh.1, hsh.2]⟩
      have hk1 : shapeCount (num_inputs key) (num_outputs key) (key :: rest) =
          shapeCount (num_inputs key) (num_outputs key) rest + 1 := by
        rw [shapeCount, shapeCount, List.countP_cons_of_pos _ _ (by simp)]
      omega
    · rename_i hcon
      rw [Bool.not_eq_true] at hcon
      have hrec := ih (insertSorted (sk (num_inputs key) (num_outputs key)) key m)
        (insertSorted_coherent hco) h
      have hcnt : shapeCount ni no
            ((insertSorted (sk (num_inputs key) (num_outputs key)) key m).map
              (fun e => e.2)) =
          shapeCount ni no (key :: m.map (fun e => e.2)) := by
        rw [shapeCount, shapeCount]
        exact ((insertSorted_perm key hcon).map (fun e => e.2)).countP_eq _
      rw [hcnt] at hrec
      simp only [shapeCount, List.countP_cons] at hrec ⊢
      omega

theorem countP_key_le_one {K : Type} (c : SortKey) :
    ∀ (l : List (SortKey × K)), KeysSorted l →
      l.countP (fun e => e.1 == c) ≤ 1
  | [], _ => by simp
  | e :: rest, hs => by
    rw [KeysSorted, List.pairwise_cons] at hs
    rw [List.countP_cons]
    by_cases hc : ((fun (x : SortKey × K) => x.1 == c) e) = true
    · rw [if_pos hc]
      have h0 : rest.countP (fun e => e.1 == c) = 0 := by
        rw [List.countP_eq_zero]
        intro x hx hxc
        exact lexLt_ne (hs.1 x hx) ((beq_iff_eq.mp hc).trans (beq_iff_eq.mp hxc).symm)
      omega
    · rw [if_neg hc]
      have := countP_key_le_one c rest hs.2
      omega

theorem new_ok_shapeCount {K : Type} [SizedKey K] {sk : Nat → Nat → SortKey}
    (hsk : GoodOrder sk) {ks : List K} {s : KeySet K}
    (hc : KeySet.new sk ks = Except.ok s) (ni no : Nat) :
    shapeCount ni no ks ≤ 1 := by
  obtain ⟨hs, _, _, hp⟩ := new_ok_spec hc
  have h1 : s.keys.countP (fun e => e.1 == sk ni no) ≤ 1 := countP_key_le_one _ _ hs
  have h2 : s.keys.countP (fun e => e.1 == sk ni no) =
      (ks.map (keyEntry sk)).countP (fun e => e.1 == sk ni no) := hp.countP_eq _
  rw [List.countP_map] at h2
  have h3 : ((fun (e : SortKey × K) => e.1 == sk ni no) ∘ keyEntry sk) =
      (fun k => num_inputs k == ni && num_outputs k == no) := by
    funext k
    rw [Bool.eq_iff_iff]
    simp only [Function.comp, keyEntry, beq_iff_eq, Bool.and_eq_true]
    constructor
    · exact fun h => goodOrder_inj hsk h
    · rintro ⟨ha, hb⟩
      rw [ha, hb]
  rw [h3] at h2
  rw [shapeCount, ← h2]
  exact h1

theorem new_dup_error {K : Type} [SizedKey K] {sk : Nat → Nat → SortKey}
    (hsk : GoodOrder sk) {ks : List K} {ni no : Nat}
    (hdup : 2 ≤ shapeCount ni no ks) :
    ∃ a b, KeySet.new sk ks = Except.error (Error.DuplicateKeys a b) ∧
      2 ≤ shapeCount a b ks := by
  cases hn : KeySet.new sk ks with
  | ok s =>
    have := new_ok_shapeCount hsk hn ni no
    omega
  | error e =>
    cases e with
    | NoKeys =>
      exfalso
      rw [KeySet.new] at hn
      split at hn
      · rename_i e' he'
        obtain ⟨a, b, hab⟩ := newLoop_error_form sk ks [] e' he'
        injection hn with h
        rw [hab] at h
        cases h
      · rename_i m hm
        split at hn
        · rename_i hemp
          obtain ⟨_, _, hp⟩ := newLoop_ok_spec sk ks [] m List.Pairwise.nil
            (fun e he => absurd he (List.not_mem_nil e)) hm
          rw [List.isEmpty_eq_true] at hemp
          subst hemp
          have : ks.map (keyEntry sk) = [] := by simpa using hp.symm.eq_nil
          rw [List.map_eq_nil_iff] at this
          subst this
          simp [shapeCount] at hdup
        · cases hn
    | DuplicateKeys a b =>
      refine ⟨a, b, rfl, ?_⟩
      rw [KeySet.new] at hn
      split at hn
      · rename_i e' he'
        injection hn with h
        subst h
        have := newLoop_error_dup hsk ks []
          (fun e he => absurd he (List.not_mem_nil e)) he'
        simpa [shapeCount] using this
      · split at hn
        · cases hn
        · cases hn

theorem exact_fit_new_char {K : Type} [SizedKey K] {sk : Nat → Nat → SortKey}
    (hsk : GoodOrder sk) {ks : List K} {s : KeySet K}
    (hc : KeySet.new sk ks = Except.ok s) (ni no : Nat) (k : K) :
    s.exact_fit_key sk ni no = some k ↔
      k ∈ ks ∧ num_inputs k = ni ∧ num_outputs k = no := by
  obtain ⟨hs, _, _, hp⟩ := new_ok_spec hc
  rw [exact_fit_char sk hs, hp.mem_iff, List.mem_map]
  constructor
  · rintro ⟨a, ha, heq⟩
    rw [keyEntry, Prod.mk.injEq] at heq
    obtain ⟨hsk', rfl⟩ := heq
    obtain ⟨h1, h2⟩ := goodOrder_inj hsk hsk'
    exact ⟨ha, h1, h2⟩
  · rintro ⟨hk, h1, h2⟩
    exact ⟨k, hk, by rw [keyEntry, h1, h2]⟩

theorem best_fit_success_iff {K : Type} [SizedKey K] {sk : Nat → Nat → SortKey}
    (hsk : GoodOrder sk) {ks : List K} {s : KeySet K}
    (hc : KeySet.new sk ks = Except.ok s) (ni no : Nat) :
    (∃ r, s.best_fit_key sk ni no = some (Except.ok r)) ↔
      ∃ k ∈ ks, ni ≤ num_inputs k ∧ no ≤ num_outputs k := by
  obtain ⟨hs, hco, hne, hp⟩ := new_ok_spec hc
  rcases best_fit_spec hsk s hs hco hne ni no with
    ⟨ki, ko, k, hr, ⟨e, hemem, he2⟩, hki, hko, hni, hno, _⟩ | ⟨hnone, m, _, hr⟩
  · constructor
    · intro _
      refine ⟨e.2, ?_, ?_, ?_⟩
      · have := hp.mem_iff.mp hemem
        rw [List.mem_map] at this
        obtain ⟨a, ha, rfl⟩ := this
        exact ha
      · rw [he2, ← hki]; exact hni
      · rw [he2, ← hko]; exact hno
    · intro _
      exact ⟨(ki, ko, k), hr⟩
  · constructor
    · rintro ⟨r, hr'⟩
      rw [hr] at hr'
      injection hr' with h
      cases h
    · rintro ⟨k, hk, hdom⟩
      exfalso
      have hmem : keyEntry sk k ∈ s.keys :=
        hp.mem_iff.mpr (List.mem_map_of_mem _ hk)
      exact hnone _ hmem ⟨hdom.1, hdom.2⟩

/-- Claim C5: for the empty input sequence, construction fails with `NoKeys`. -/
theorem C5_empty_batch_no_keys {K : Type} [SizedKey K] (sk : Nat → Nat → SortKey) :
    KeySet.new sk ([] : List K) = Except.error Error.NoKeys := rfl

/-- Claim C7: the shape accessors of the tagged-union verifying key dispatch
by variant: transfer and freeze delegate to the wrapped key, mint reports
(1, 2) whatever its content. -/
theorem C7_verifying_key_dispatch (xfr : TransferVerifyingKey)
    (freeze : FreezeVerifyingKey) (mint : MintVerifyingKey) :
    num_inputs (TransactionVerifyingKey.Transfer xfr) = xfr.num_input ∧
    num_outputs (TransactionVerifyingKey.Transfer xfr) = xfr.num_output ∧
    num_inputs (TransactionVerifyingKey.Freeze freeze) = freeze.num_input ∧
    num_outputs (TransactionVerifyingKey.Freeze freeze) = freeze.num_output ∧
    num_inputs (TransactionVerifyingKey.Mint mint) = 1 ∧
    num_outputs (TransactionVerifyingKey.Mint mint) = 2 :=
  ⟨rfl, rfl, rfl, rfl, rfl, rfl⟩

/-- Claim C9: the derived `Default` produces an empty collection, on which
`max_size` panics and `best_fit_key` panics for every requested shape. -/
theorem C9_default_violates_invariant {K : Type} [SizedKey K]
    (sk : Nat → Nat → SortKey) (ni no : Nat) :
    (KeySet.default : KeySet K).keys = [] ∧
    (KeySet.default : KeySet K).max_size = none ∧
    (KeySet.default : KeySet K).best_fit_key sk ni no = none :=
  ⟨rfl, rfl, rfl⟩

/-- Claim C1: for every constructed collection, `best_fit_key (ni, no)` either
returns a stored key whose shape `(ki, ko)` satisfies `ki ≥ ni` and `ko ≥ no`
and whose sort key is minimal, under the collection's sort-key order, among
all stored entries dominating `(ni, no)`, or, when no stored entry dominates
`(ni, no)`, fails carrying exactly the pair `max_size()`. -/
theorem C1_best_fit_key_correct {K : Type} [SizedKey K] {sk : Nat → Nat → SortKey}
    (hsk : GoodOrder sk) {ks : List K} {s : KeySet K}
    (hc : KeySet.new sk ks = Except.ok s) (ni no : Nat) :
    (∃ ki ko k, s.best_fit_key sk ni no = some (Except.ok (ki, ko, k)) ∧
      (∃ e ∈ s.keys, e.2 = k) ∧ ki = num_inputs k ∧ ko = num_outputs k ∧
      ni ≤ ki ∧ no ≤ ko ∧
      ∀ e ∈ s.keys, ni ≤ num_inputs e.2 → no ≤ num_outputs e.2 →
        lexLe (sk ki ko) e.1 = true) ∨
    ((∀ e ∈ s.keys, ¬(ni ≤ num_inputs e.2 ∧ no ≤ num_outputs e.2)) ∧
      ∃ m, s.max_size = some m ∧ s.best_fit_key sk ni no = some (Except.error m)) := by
  obtain ⟨hs, hco, hne, _⟩ := new_ok_spec hc
  exact best_fit_spec hsk s hs hco hne ni no

/-- Witness for C1: the singleton collection of shape (2, 2), queried at
(1, 1). -/
theorem C1_witness :
    GoodOrder OrderByInputs.sort_key ∧
    KeySet.new OrderByInputs.sort_key [TestKey.mk 0 2 2] =
      Except.ok (KeySet.mk [((2, 2), TestKey.mk 0 2 2)]) ∧
    ((∃ ki ko k, (KeySet.mk [((2, 2), TestKey.mk 0 2 2)]).best_fit_key
          OrderByInputs.sort_key 1 1 = some (Except.ok (ki, ko, k)) ∧
        (∃ e ∈ (KeySet.mk [((2, 2), TestKey.mk 0 2 2)]).keys, e.2 = k) ∧
        ki = num_inputs k ∧ ko = num_outputs k ∧ 1 ≤ ki ∧ 1 ≤ ko ∧
        ∀ e ∈ (KeySet.mk [((2, 2), TestKey.mk 0 2 2)]).keys,
          1 ≤ num_inputs e.2 → 1 ≤ num_outputs e.2 →
            lexLe (OrderByInputs.sort_key ki ko) e.1 = true) ∨
      ((∀ e ∈ (KeySet.mk [((2, 2), TestKey.mk 0 2 2)]).keys,
          ¬(1 ≤ num_inputs e.2 ∧ 1 ≤ num_outputs e.2)) ∧
        ∃ m, (KeySet.mk [((2, 2), TestKey.mk 0 2 2)]).max_size = some m ∧
          (KeySet.mk [((2, 2), TestKey.mk 0 2 2)]).best_fit_key
            OrderByInputs.sort_key 1 1 = some (Except.error m))) :=
  ⟨Or.inl rfl, rfl,
    @C1_best_fit_key_correct TestKey _ OrderByInputs.sort_key (Or.inl rfl)
      [TestKey.mk 0 2 2] (KeySet.mk [((2, 2), TestKey.mk 0 2 2)]) rfl 1 1⟩

/-- Claim C2: every stored entry's shape exact-fits to that entry's own key,
and best-fits with matched shape equal to its own shape. -/
theorem C2_key_fits_itself {K : Type} [SizedKey K] {sk : Nat → Nat → SortKey}
    (hsk : GoodOrder sk) {ks : List K} {s : KeySet K}
    (hc : KeySet.new sk ks = Except.ok s) (e : SortKey × K) (he : e ∈ s.keys) :
    s.exact_fit_key sk (num_inputs e.2) (num_outputs e.2) = some e.2 ∧
    ∃ k, s.best_fit_key sk (num_inputs e.2) (num_outputs e.2) =
      some (Except.ok (num_inputs e.2, num_outputs e.2, k)) := by
  obtain ⟨hs, hco, hne, _⟩ := new_ok_spec hc
  constructor
  · rw [exact_fit_char sk hs]
    have heq : e = (sk (num_inputs e.2) (num_outputs e.2), e.2) := by
      rw [Prod.ext_iff]
      exact ⟨hco e he, rfl⟩
    rw [← heq]
    exact he
  · rcases best_fit_spec hsk s hs hco hne (num_inputs e.2) (num_outputs e.2) with
      ⟨ki, ko, k, hr, _, _, _, hni, hno, hmin⟩ | ⟨hnone, _⟩
    · have h1 : lexLe (sk ki ko) e.1 = true := hmin e he (le_refl _) (le_refl _)
      rw [hco e he] at h1
      have h2 : lexLe (sk (num_inputs e.2) (num_outputs e.2)) (sk ki ko) = true :=
        goodOrder_mono hsk hni hno
      obtain ⟨h4, h5⟩ := goodOrder_inj hsk (lexLe_antisymm h2 h1)
      subst h4
      subst h5
      exact ⟨k, hr⟩
    · exact absurd ⟨le_refl _, le_refl _⟩ (hnone e he)

/-- Witness for C2: the singleton collection of shape (1, 2) and its own
stored entry. -/
theorem C2_witness :
    GoodOrder OrderByInputs.sort_key ∧
    KeySet.new OrderByInputs.sort_key [TestKey.mk 0 1 2] =
      Except.ok (KeySet.mk [((1, 2), TestKey.mk 0 1 2)]) ∧
    ((1, 2), TestKey.mk 0 1 2) ∈ (KeySet.mk [((1, 2), TestKey.mk 0 1 2)]).keys ∧
    ((KeySet.mk [((1, 2), TestKey.mk 0 1 2)]).exact_fit_key OrderByInputs.sort_key
        (num_inputs (TestKey.mk 0 1 2)) (num_outputs (TestKey.mk 0 1 2)) =
          some (TestKey.mk 0 1 2) ∧
      ∃ k, (KeySet.mk [((1, 2), TestKey.mk 0 1 2)]).best_fit_key OrderByInputs.sort_key
        (num_inputs (TestKey.mk 0 1 2)) (num_outputs (TestKey.mk 0 1 2)) =
          some (Except.ok (num_inputs (TestKey.mk 0 1 2),
            num_outputs (TestKey.mk 0 1 2), k))) :=
  ⟨Or.inl rfl, rfl, List.mem_cons_self _ _,
    @C2_key_fits_itself TestKey _ OrderByInputs.sort_key (Or.inl rfl)
      [TestKey.mk 0 1 2] (KeySet.mk [((1, 2), TestKey.mk 0 1 2)]) rfl
      ((1, 2), TestKey.mk 0 1 2) (List.mem_cons_self _ _)⟩

theorem map_snd_keyEntry {K : Type} [SizedKey K] (sk : Nat → Nat → SortKey) :
    ∀ ks : List K, (ks.map (keyEntry sk)).map (fun e => e.2) = ks
  | [] => rfl
  | a :: t => by
    show (keyEntry sk a).2 :: (t.map (keyEntry sk)).map (fun e => e.2) = a :: t
    rw [map_snd_keyEntry sk t]
    rfl

/-- Claim C3: for every non-empty batch with pairwise-distinct shapes,
construction succeeds and `iter` yields exactly the input keys, each once
(a permutation), in strictly ascending sort-key order. -/
theorem C3_construct_succeeds {K : Type} [SizedKey K] {sk : Nat → Nat → SortKey}
    (hsk : GoodOrder sk) {ks : List K} (hne : ks ≠ [])
    (hdist : ks.Pairwise (fun a b =>
      (num_inputs a, num_outputs a) ≠ (num_inputs b, num_outputs b))) :
    ∃ s : KeySet K, KeySet.new sk ks = Except.ok s ∧ s.iter.Perm ks ∧
      s.iter.Pairwise (fun a b =>
        lexLt (sk (num_inputs a) (num_outputs a))
          (sk (num_inputs b) (num_outputs b)) = true) := by
  have hdist' : ks.Pairwise (fun a b =>
      sk (num_inputs a) (num_outputs a) ≠ sk (num_inputs b) (num_outputs b)) := by
    refine hdist.imp ?_
    intro a b hab hcol
    obtain ⟨ha, hb⟩ := goodOrder_inj hsk hcol
    exact hab (by rw [ha, hb])
  obtain ⟨m', hm'⟩ := newLoop_total sk ks [] (fun k _ => rfl) hdist'
  obtain ⟨hs, hco, hp⟩ := newLoop_ok_spec sk ks [] m' List.Pairwise.nil
    (fun e he => absurd he (List.not_mem_nil e)) hm'
  rw [List.nil_append] at hp
  have hm'ne : m' ≠ [] := by
    intro h0
    subst h0
    have h1 : ks.map (keyEntry sk) = [] := hp.symm.eq_nil
    rw [List.map_eq_nil_iff] at h1
    exact hne h1
  refine ⟨⟨m'⟩, ?_, ?_, ?_⟩
  · simp only [KeySet.new, hm']
    rw [if_neg (fun h0 => hm'ne (List.isEmpty_eq_true.mp h0))]
  · have h2 := map_snd_keyEntry sk ks
    have h3 := hp.map (fun e => e.2)
    rw [h2] at h3
    exact h3
  · have h3 : m'.Pairwise (fun a b =>
        lexLt (sk (num_inputs a.2) (num_outputs a.2))
          (sk (num_inputs b.2) (num_outputs b.2)) = true) := by
      refine List.Pairwise.imp_of_mem ?_ hs
      intro a b ha hb hab
      rw [← hco a ha, ← hco b hb]
      exact hab
    exact List.pairwise_map.mpr h3

/-- Witness for C3: the two-key batch with shapes (2, 2) and (1, 1). -/
theorem C3_witness :
    GoodOrder OrderByInputs.sort_key ∧
    ([TestKey.mk 0 2 2, TestKey.mk 1 1 1] : List TestKey) ≠ [] ∧
    ([TestKey.mk 0 2 2, TestKey.mk 1 1 1] : List TestKey).Pairwise (fun a b =>
      (num_inputs a, num_outputs a) ≠ (num_inputs b, num_outputs b)) ∧
    (∃ s : KeySet TestKey, KeySet.new OrderByInputs.sort_key
        [TestKey.mk 0 2 2, TestKey.mk 1 1 1] = Except.ok s ∧
      s.iter.Perm [TestKey.mk 0 2 2, TestKey.mk 1 1 1] ∧
      s.iter.Pairwise (fun a b =>
        lexLt (OrderByInputs.sort_key (num_inputs a) (num_outputs a))
          (OrderByInputs.sort_key (num_inputs b) (num_outputs b)) = true)) :=
  ⟨Or.inl rfl, by simp, by decide,
    C3_construct_succeeds (Or.inl rfl) (by simp) (by decide)⟩

/-- Claim C4: for every batch in which some shape occurs twice, construction
fails with `DuplicateKeys` carrying a shape that occurs twice in the batch
(hence the duplicated shape whenever it is unique), no matter where the
duplicates sit, and no collection is produced. -/
theorem C4_duplicate_shapes_rejected {K : Type} [SizedKey K]
    {sk : Nat → Nat → SortKey} (hsk : GoodOrder sk) {ks : List K} {ni no : Nat}
    (hdup : 2 ≤ shapeCount ni no ks) :
    ∃ a b, KeySet.new sk ks = Except.error (Error.DuplicateKeys a b) ∧
      2 ≤ shapeCount a b ks ∧
      (∀ s : KeySet K, KeySet.new sk ks ≠ Except.ok s) ∧
      ((∀ i o, 2 ≤ shapeCount i o ks → (i, o) = (ni, no)) → (a, b) = (ni, no)) := by
  obtain ⟨a, b, hn, hcnt⟩ := new_dup_error hsk hdup
  refine ⟨a, b, hn, hcnt, ?_, fun huniq => huniq a b hcnt⟩
  intro s hs
  rw [hn] at hs
  cases hs

/-- Witness for C4: two keys of shape (1, 1). -/
theorem C4_witness :
    GoodOrder OrderByInputs.sort_key ∧
    2 ≤ shapeCount 1 1 [TestKey.mk 0 1 1, TestKey.mk 1 1 1] ∧
    (∃ a b, KeySet.new OrderByInputs.sort_key [TestKey.mk 0 1 1, TestKey.mk 1 1 1] =
        Except.error (Error.DuplicateKeys a b) ∧
      2 ≤ shapeCount a b [TestKey.mk 0 1 1, TestKey.mk 1 1 1] ∧
      (∀ s : KeySet TestKey, KeySet.new OrderByInputs.sort_key
        [TestKey.mk 0 1 1, TestKey.mk 1 1 1] ≠ Except.ok s) ∧
      ((∀ i o, 2 ≤ shapeCount i o [TestKey.mk 0 1 1, TestKey.mk 1 1 1] →
        (i, o) = (1, 1)) → (a, b) = (1, 1))) :=
  ⟨Or.inl rfl, by decide, C4_duplicate_shapes_rejected (Or.inl rfl) (by decide)⟩

/-- Claim C6 (amended): two collections built from the same batch under
order-by-inputs and order-by-outputs agree on every `exact_fit_key` result
and on whether `best_fit_key` succeeds; but the matched shapes, each minimal
under its own collection's order, may differ. -/
theorem C6_order_agreement {K : Type} [SizedKey K] {ks : List K} {s1 s2 : KeySet K}
    (h1 : KeySet.new OrderByInputs.sort_key ks = Except.ok s1)
    (h2 : KeySet.new OrderByOutputs.sort_key ks = Except.ok s2) :
    (∀ ni no, s1.exact_fit_key OrderByInputs.sort_key ni no =
      s2.exact_fit_key OrderByOutputs.sort_key ni no) ∧
    (∀ ni no,
      (∃ r, s1.best_fit_key OrderByInputs.sort_key ni no = some (Except.ok r)) ↔
      (∃ r, s2.best_fit_key OrderByOutputs.sort_key ni no = some (Except.ok r))) := by
  constructor
  · intro ni no
    cases hx : s1.exact_fit_key OrderByInputs.sort_key ni no with
    | some k =>
      have hk := (exact_fit_new_char (Or.inl rfl) h1 ni no k).mp hx
      exact ((exact_fit_new_char (Or.inr rfl) h2 ni no k).mpr hk).symm
    | none =>
      cases hy : s2.exact_fit_key OrderByOutputs.sort_key ni no with
      | none => rfl
      | some k =>
        have hk := (exact_fit_new_char (Or.inr rfl) h2 ni no k).mp hy
        rw [(exact_fit_new_char (Or.inl rfl) h1 ni no k).mpr hk] at hx
        cases hx
  · intro ni no
    rw [best_fit_success_iff (Or.inl rfl) h1, best_fit_success_iff (Or.inr rfl) h2]

/-- Counterexample to C6 as stated: from the batch with shapes (1, 3) and
(3, 1), both collections' `best_fit_key 1 1` succeed, but the matched shape
is (1, 3) under order-by-inputs and (3, 1) under order-by-outputs — the two
strategies do not return the same minimal dominating shape. -/
theorem C6_counterexample :
    KeySet.new OrderByInputs.sort_key [TestKey.mk 0 1 3, TestKey.mk 1 3 1] =
      Except.ok (KeySet.mk [((1, 3), TestKey.mk 0 1 3), ((3, 1), TestKey.mk 1 3 1)]) ∧
    KeySet.new OrderByOutputs.sort_key [TestKey.mk 0 1 3, TestKey.mk 1 3 1] =
      Except.ok (KeySet.mk [((1, 3), TestKey.mk 1 3 1), ((3, 1), TestKey.mk 0 1 3)]) ∧
    (KeySet.mk [((1, 3), TestKey.mk 0 1 3), ((3, 1), TestKey.mk 1 3 1)]).best_fit_key
      OrderByInputs.sort_key 1 1 = some (Except.ok (1, 3, TestKey.mk 0 1 3)) ∧
    (KeySet.mk [((1, 3), TestKey.mk 1 3 1), ((3, 1), TestKey.mk 0 1 3)]).best_fit_key
      OrderByOutputs.sort_key 1 1 = some (Except.ok (3, 1, TestKey.mk 1 3 1)) ∧
    ((1, 3) : Nat × Nat) ≠ (3, 1) :=
  ⟨rfl, rfl, rfl, rfl, by decide⟩

/-- Witness for the amended C6: the singleton batch of shape (1, 2). -/
theorem C6_witness :
    KeySet.new OrderByInputs.sort_key [TestKey.mk 0 1 2] =
      Except.ok (KeySet.mk [((1, 2), TestKey.mk 0 1 2)]) ∧
    KeySet.new OrderByOutputs.sort_key [TestKey.mk 0 1 2] =
      Except.ok (KeySet.mk [((2, 1), TestKey.mk 0 1 2)]) ∧
    ((∀ ni no, (KeySet.mk [((1, 2), TestKey.mk 0 1 2)]).exact_fit_key
        OrderByInputs.sort_key ni no =
      (KeySet.mk [((2, 1), TestKey.mk 0 1 2)]).exact_fit_key
        OrderByOutputs.sort_key ni no) ∧
    (∀ ni no,
      (∃ r, (KeySet.mk [((1, 2), TestKey.mk 0 1 2)]).best_fit_key
        OrderByInputs.sort_key ni no = some (Except.ok r)) ↔
      (∃ r, (KeySet.mk [((2, 1), TestKey.mk 0 1 2)]).best_fit_key
        OrderByOutputs.sort_key ni no = some (Except.ok r)))) :=
  ⟨rfl, rfl,
    @C6_order_agreement TestKey _ [TestKey.mk 0 1 2]
      (KeySet.mk [((1, 2), TestKey.mk 0 1 2)])
      (KeySet.mk [((2, 1), TestKey.mk 0 1 2)]) rfl rfl⟩

/-- Claim C8: on every constructed (hence non-empty) collection, `max_size`
returns the shape of the stored entry with the greatest sort key; on the
empty collection, which only arises by bypassing the constructor, it is the
fatal `unwrap` panic, embedded as `none`. -/
theorem C8_max_size_greatest {K : Type} [SizedKey K] {sk : Nat → Nat → SortKey}
    {ks : List K} {s : KeySet K} (hc : KeySet.new sk ks = Except.ok s) :
    (∃ e, lastEntry s.keys = some e ∧
      s.max_size = some (num_inputs e.2, num_outputs e.2) ∧ e ∈ s.keys ∧
      ∀ x ∈ s.keys, lexLe x.1 e.1 = true) ∧
    KeySet.max_size (KeySet.mk ([] : List (SortKey × K))) = none := by
  obtain ⟨hs, _, hne, _⟩ := new_ok_spec hc
  obtain ⟨e, he, hemem⟩ := lastEntry_of_ne_nil s.keys hne
  refine ⟨⟨e, he, ?_, hemem, lastEntry_max s.keys hs e he⟩, rfl⟩
  rw [KeySet.max_size, he]
  rfl

/-- Witness for C8: the collection holding shapes (1, 1) and (2, 2). -/
theorem C8_witness :
    KeySet.new OrderByInputs.sort_key [TestKey.mk 0 2 2, TestKey.mk 1 1 1] =
      Except.ok (KeySet.mk [((1, 1), TestKey.mk 1 1 1), ((2, 2), TestKey.mk 0 2 2)]) ∧
    ((∃ e, lastEntry (KeySet.mk [((1, 1), TestKey.mk 1 1 1),
          ((2, 2), TestKey.mk 0 2 2)]).keys = some e ∧
        (KeySet.mk [((1, 1), TestKey.mk 1 1 1), ((2, 2), TestKey.mk 0 2 2)]).max_size =
          some (num_inputs e.2, num_outputs e.2) ∧
        e ∈ (KeySet.mk [((1, 1), TestKey.mk 1 1 1), ((2, 2), TestKey.mk 0 2 2)]).keys ∧
        ∀ x ∈ (KeySet.mk [((1, 1), TestKey.mk 1 1 1),
          ((2, 2), TestKey.mk 0 2 2)]).keys, lexLe x.1 e.1 = true) ∧
      KeySet.max_size (KeySet.mk ([] : List (SortKey × TestKey))) = none) :=
  ⟨rfl,
    @C8_max_size_greatest TestKey _ OrderByInputs.sort_key
      [TestKey.mk 0 2 2, TestKey.mk 1 1 1]
      (KeySet.mk [((1, 1), TestKey.mk 1 1 1), ((2, 2), TestKey.mk 0 2 2)]) rfl⟩

/-- Claim C10: the `FromIterator` entry point panics (embedded as `none`)
on the empty batch and on any batch in which some shape occurs twice. -/
theorem C10_from_iter_panics {K : Type} [SizedKey K] {sk : Nat → Nat → SortKey}
    (hsk : GoodOrder sk) (ks : List K)
    (hbad : ks = [] ∨ ∃ ni no, 2 ≤ shapeCount ni no ks) :
    KeySet.from_iter sk ks = none := by
  rcases hbad with rfl | ⟨ni, no, hdup⟩
  · rfl
  · obtain ⟨a, b, hn, _⟩ := new_dup_error hsk hdup
    rw [KeySet.from_iter, hn]
    rfl

/-- Witness for C10: collecting two keys of shape (1, 1) panics. -/
theorem C10_witness :
    GoodOrder OrderByInputs.sort_key ∧
    (([TestKey.mk 0 1 1, TestKey.mk 1 1 1] : List TestKey) = [] ∨
      ∃ ni no, 2 ≤ shapeCount ni no [TestKey.mk 0 1 1, TestKey.mk 1 1 1]) ∧
    KeySet.from_iter OrderByInputs.sort_key [TestKey.mk 0 1 1, TestKey.mk 1 1 1] =
      none :=
  ⟨Or.inl rfl, Or.inr ⟨1, 1, by decide⟩,
    C10_from_iter_panics (Or.inl rfl) _ (Or.inr ⟨1, 1, by decide⟩)⟩
